import Mathlib

/-!
# Verification of the Holmes extractor semantic-analysis layer

A shallow embedding of `holmes_extractor/semantics.py` and proofs about it.
Python token indices are embedded as `Nat`; semantic-dependency child indices
may be negative (grammatical redirects), so they are embedded as `Int`.
Python lists become Lean `List`s; the per-token mutable `token._.holmes`
state of a document becomes an explicit state function `Nat → HolmesDictionary`
threaded through each pass.
-/

namespace Holmes

/-- Embedding of the `SemanticDependency` data carried per edge: the four
fields set by `SemanticDependency.__init__` after its checks pass. -/
structure SemanticDependency where
  parent_index : Int
  child_index : Int
  label : Option String
  is_uncertain : Bool
deriving DecidableEq, Repr

/-- Embedding of the error hierarchy in `holmes_extractor/errors.py` as far as
`semantics.py` raises it: `DocumentTooBigError`, `WrongModelDeserializationError`
and the `RuntimeError`s raised by `SemanticDependency.__init__`. -/
inductive HolmesError where
  | documentTooBig (msg : String)
  | wrongModelDeserialization (model : String)
  | runtimeError (msg : String)
deriving DecidableEq, Repr

/-- Embedding of `SemanticDependency.__init__`: the checked constructor.
It first rejects a negative child index combined with a label, then rejects a
self-referring dependency, and otherwise stores the four fields verbatim. -/
def mkSemanticDependency (parent_index child_index : Int) (label : Option String)
    (is_uncertain : Bool) : Except HolmesError SemanticDependency :=
  if child_index < 0 ∧ label ≠ none then
    .error (.runtimeError "Semantic dependency with negative child index may not have a label.")
  else if parent_index = child_index then
    .error (.runtimeError (" ".intercalate
      ["Attempt to create self-referring semantic dependency with index", toString parent_index]))
  else
    .ok ⟨parent_index, child_index, label, is_uncertain⟩

/-- Embedding of `SemanticDependency.__eq__`: equality looks only at
`parent_index` and `child_index` (both compared values are of type
`SemanticDependency` here, so the Python `type(other)` check is vacuous). -/
def semanticDependencyEq (d1 d2 : SemanticDependency) : Bool :=
  d1.parent_index == d2.parent_index && d1.child_index == d2.child_index

/-- Embedding of `SemanticDependency.__hash__`, which returns
`hash((parent_index, child_index))`: the Python hash value is a function of
the pair alone, so we embed it as that pair. -/
def semanticDependencyHash (d : SemanticDependency) : Int × Int :=
  (d.parent_index, d.child_index)

/-- Embedding of the mutable per-token `HolmesDictionary` object. -/
structure HolmesDictionary where
  index : Nat
  lemmaStr : String
  children : List SemanticDependency
  righthand_siblings : List Nat
  is_involved_in_or_conjunction : Bool
  is_negated : Option Bool
  is_matchable : Option Bool
deriving DecidableEq, Repr

/-- Embedding of `HolmesDictionary.has_dependency_with_child_index`. -/
def HolmesDictionary.has_dependency_with_child_index (h : HolmesDictionary) (i : Int) : Bool :=
  h.children.any (fun d => d.child_index == i)

/-- Embedding of `HolmesDictionary.has_dependency_with_label`. -/
def HolmesDictionary.has_dependency_with_label (h : HolmesDictionary) (l : Option String) : Bool :=
  h.children.any (fun d => d.label == l)

/-- Embedding of `HolmesDictionary.has_dependency_with_child_index_and_label`. -/
def HolmesDictionary.has_dependency_with_child_index_and_label (h : HolmesDictionary)
    (i : Int) (l : Option String) : Bool :=
  h.children.any (fun d => d.child_index == i && d.label == l)

/-- The document-wide mutable Holmes state: the `token._.holmes` dictionary of
each token, addressed by token index. -/
abbrev HState : Type := Nat → HolmesDictionary

/-- Point update of the document state at one token index. -/
def updState (st : HState) (i : Nat) (h : HolmesDictionary) : HState :=
  fun j => if j = i then h else st j

/-- Python list indexing `doc[i]` for a possibly negative index `i` over a
document of `n` tokens: a negative index counts from the end. -/
def pyIdx (n : Nat) (i : Int) : Nat :=
  if 0 ≤ i then i.toNat else (n + i).toNat

/-- The maximum document size constant `SemanticAnalyzer._maximum_document_size`. -/
def maximumDocumentSize : Nat := 1000000

/-- Embedding of `SemanticAnalyzer.spacy_parse`.  The external spaCy pipeline
`self.nlp` is out of scope and is taken as a parameter `nlp`; the length check
happens before `nlp` is ever applied. -/
def spacyParse {α : Type} (nlp : String → α) (text : String) : Except HolmesError α :=
  if text.length > maximumDocumentSize then
    .error (.documentTooBig (" ".intercalate
      ["size:", toString text.length, "max:", toString maximumDocumentSize]))
  else
    .ok (nlp text)

end Holmes

namespace Holmes

/-- C2: constructing a `SemanticDependency` with `parent_index = child_index`,
or with a negative child index together with a label, is rejected; every
successfully constructed dependency has distinct parent and child indices and
carries no label when its child index is negative. -/
theorem semanticDependency_construction_invariants :
    (∀ (p c : Int) (l : Option String) (u : Bool),
      ((c < 0 ∧ l ≠ none) ∨ p = c) →
        ∃ msg, mkSemanticDependency p c l u = .error msg) ∧
    (∀ (p c : Int) (l : Option String) (u : Bool) (d : SemanticDependency),
      mkSemanticDependency p c l u = .ok d →
        d.parent_index ≠ d.child_index ∧ (d.child_index < 0 → d.label = none)) := by
  constructor
  · intro p c l u h
    rcases h with h | h
    · exact ⟨.runtimeError
        "Semantic dependency with negative child index may not have a label.",
        by simp [mkSemanticDependency, h]⟩
    · by_cases hneg : c < 0 ∧ l ≠ none
      · exact ⟨.runtimeError
          "Semantic dependency with negative child index may not have a label.",
          by simp [mkSemanticDependency, hneg]⟩
      · exact ⟨.runtimeError (" ".intercalate
          ["Attempt to create self-referring semantic dependency with index", toString p]),
          by simp [mkSemanticDependency, hneg, h]⟩
  · intro p c l u d h
    unfold mkSemanticDependency at h
    by_cases hneg : c < 0 ∧ l ≠ none
    · simp [hneg] at h
    · by_cases heq : p = c
      · simp [hneg, heq] at h
      · simp [hneg, heq] at h
        subst h
        refine ⟨heq, ?_⟩
        intro hc
        by_cases hl : l = none
        · exact hl
        · exact absurd ⟨hc, hl⟩ hneg

/-- Witness for C2 at concrete inputs: a self-referring dependency and one
with a negative child index and a label are both rejected, and the concrete
successful construction `(0, -1, none)` satisfies the invariants. -/
theorem semanticDependency_construction_invariants_witness :
    (∃ msg, mkSemanticDependency 3 3 none false = .error msg) ∧
    (∃ msg, mkSemanticDependency 0 (-2) (some "nsubj") false = .error msg) ∧
    ((⟨0, -1, none, true⟩ : SemanticDependency).parent_index ≠
        (⟨0, -1, none, true⟩ : SemanticDependency).child_index ∧
      ((⟨0, -1, none, true⟩ : SemanticDependency).child_index < 0 →
        (⟨0, -1, none, true⟩ : SemanticDependency).label = none)) :=
  ⟨semanticDependency_construction_invariants.1 3 3 none false (Or.inr rfl),
   semanticDependency_construction_invariants.1 0 (-2) (some "nsubj") false
     (Or.inl (by decide)),
   semanticDependency_construction_invariants.2 0 (-1) none true _
     (by simp [mkSemanticDependency])⟩

/-- C3: equality and hashing of `SemanticDependency` are determined solely by
the pair `(parent_index, child_index)`: same pair means equal and equal hashes
regardless of label and uncertainty, different pair means unequal. -/
theorem semanticDependency_eq_hash_by_indices :
    (∀ d1 d2 : SemanticDependency,
      d1.parent_index = d2.parent_index → d1.child_index = d2.child_index →
        semanticDependencyEq d1 d2 = true ∧
        semanticDependencyHash d1 = semanticDependencyHash d2) ∧
    (∀ d1 d2 : SemanticDependency,
      (d1.parent_index ≠ d2.parent_index ∨ d1.child_index ≠ d2.child_index) →
        semanticDependencyEq d1 d2 = false) := by
  constructor
  · intro d1 d2 hp hc
    exact ⟨by simp [semanticDependencyEq, hp, hc], by simp [semanticDependencyHash, hp, hc]⟩
  · intro d1 d2 h
    rcases h with h | h
    · simp [semanticDependencyEq, h]
    · simp [semanticDependencyEq, h]

/-- Witness for C3 at concrete inputs: two dependencies between tokens 1 and 2
differing in label and uncertainty are equal with equal hashes; dependencies
with a differing child index are unequal. -/
theorem semanticDependency_eq_hash_by_indices_witness :
    (semanticDependencyEq ⟨1, 2, some "nsubj", true⟩ ⟨1, 2, none, false⟩ = true ∧
      semanticDependencyHash ⟨1, 2, some "nsubj", true⟩ =
        semanticDependencyHash ⟨1, 2, none, false⟩) ∧
    semanticDependencyEq ⟨1, 2, some "nsubj", true⟩ ⟨1, 3, some "nsubj", true⟩ = false :=
  ⟨semanticDependency_eq_hash_by_indices.1 ⟨1, 2, some "nsubj", true⟩ ⟨1, 2, none, false⟩
      rfl rfl,
   semanticDependency_eq_hash_by_indices.2 ⟨1, 2, some "nsubj", true⟩ ⟨1, 3, some "nsubj", true⟩
      (Or.inr (by decide))⟩

/-- C6: `spacy_parse` rejects any text longer than the configured maximum
(1,000,000 characters) with `DocumentTooBigError` before any parsing work
begins (the result of the oversized branch does not depend on the external
parser), and never raises this error on a text within the bound. -/
theorem spacyParse_size_bound {α : Type} (nlp nlp' : String → α) (text : String) :
    (text.length > maximumDocumentSize →
      spacyParse nlp text = .error (.documentTooBig (" ".intercalate
        ["size:", toString text.length, "max:", toString maximumDocumentSize])) ∧
      spacyParse nlp text = spacyParse nlp' text) ∧
    (text.length ≤ maximumDocumentSize → spacyParse nlp text = .ok (nlp text)) := by
  constructor
  · intro h
    constructor
    · simp [spacyParse, h]
    · simp [spacyParse, h]
  · intro h
    simp [spacyParse, Nat.not_lt.mpr h]

/-- Witness for C6 at concrete inputs: a text of 1,000,001 characters is
rejected independently of the parser, and the empty text is parsed. -/
theorem spacyParse_size_bound_witness :
    (spacyParse (fun t => t) (String.mk (List.replicate 1000001 'a')) = .error
      (.documentTooBig (" ".intercalate
        ["size:", toString (String.mk (List.replicate 1000001 'a')).length,
         "max:", toString maximumDocumentSize])) ∧
      spacyParse (fun t => t) (String.mk (List.replicate 1000001 'a')) =
        spacyParse (fun _ => "") (String.mk (List.replicate 1000001 'a'))) ∧
    spacyParse (fun t => t) "" = .ok "" := by
  have hlen : (String.mk (List.replicate 1000001 'a')).length > maximumDocumentSize := by
    have h1 : (String.mk (List.replicate 1000001 'a')).length = 1000001 := by
      show (List.replicate 1000001 'a').length = 1000001
      exact List.length_replicate 1000001 'a'
    rw [h1]
    norm_num [maximumDocumentSize]
  exact ⟨(spacyParse_size_bound (fun t => t) (fun _ => "")
      (String.mk (List.replicate 1000001 'a'))).1 hlen,
    (spacyParse_size_bound (fun t => t) (fun _ => "") "").2 (by decide)⟩

end Holmes

namespace Holmes

/-- One write of the first loop of `_copy_any_sibling_info`: mark the
righthand sibling `rs` as involved in an or-conjunction. -/
def orFlagStep (st : HState) (rs : Nat) : HState :=
  updState st rs { st rs with is_involved_in_or_conjunction := true }

/-- The first loop of `_copy_any_sibling_info` at token `i`: copy the
or-conjunction flag to all righthand siblings. -/
def copyOrConjunctionFlag (st : HState) (i : Nat) : HState :=
  if (st i).is_involved_in_or_conjunction then
    (st i).righthand_siblings.foldl orFlagStep st
  else st

/-- One step of the middle loop of `_copy_any_sibling_info`: for the snapshot
dependency `dep` of token `i` and one righthand sibling `crs` of the
dependency's child, add a dependency from `i` to `crs` (sign-flipped when
`dep` is a grammatical redirect) unless `i` already has a dependency with that
child index or it would be self-referring.  `childIndexToAdd` is the local
variable `child_index_to_add` of the Python loop body. -/
def childIndexToAdd (dep : SemanticDependency) (crs : Nat) : Int :=
  if dep.child_index < 0 then 0 - ((crs : Int) + 1) else (crs : Int)

def copyToChildSiblingStep (st : HState) (i : Nat) (dep : SemanticDependency)
    (crs : Nat) : HState :=
  if ((st i).children.filter (fun d => d.child_index == (crs : Int))).length = 0 then
    if (i : Int) ≠ childIndexToAdd dep crs ∧
        ¬ (st i).has_dependency_with_child_index (childIndexToAdd dep crs) then
      updState st i { st i with children := (st i).children ++
        [⟨(i : Int), childIndexToAdd dep crs, dep.label, dep.is_uncertain⟩] }
    else st
  else st

/-- One step of the last loop of `_copy_any_sibling_info`: copy the snapshot
dependency `dep` onto the righthand sibling `rs` of the token being processed,
unless the sibling already has a dependency with the same label, the label is
a conjunction label, the sibling already has a dependency with this child
index, or the copy would be self-referring.  The copied dependency's
uncertainty is `markUncertain`, the language's
`_mark_child_dependencies_copied_to_siblings_as_uncertain` flag. -/
def copyToSiblingStep (conjunctionDeps : List String) (markUncertain : Bool)
    (st : HState) (dep : SemanticDependency) (rs : Nat) : HState :=
  if ((st rs).children.filter (fun d => d.label == dep.label)).length = 0 ∧
      dep.label ∉ conjunctionDeps.map Option.some ∧
      ¬ (st rs).has_dependency_with_child_index dep.child_index ∧
      (rs : Int) ≠ dep.child_index then
    updState st rs { st rs with children := (st rs).children ++
      [⟨(rs : Int), dep.child_index, dep.label, markUncertain⟩] }
  else st

/-- Processing of one snapshot dependency `dep` of token `i` inside
`_copy_any_sibling_info`: the middle loop over the righthand siblings of the
dependency's child (the child is looked up with Python's negative-index
semantics when the dependency is a grammatical redirect, exactly as
`token.doc[dependency.child_index]` does), then the last loop over the
righthand siblings of `i` other than the dependency's child. -/
def processDependency (conjunctionDeps : List String) (markUncertain : Bool)
    (n : Nat) (st : HState) (i : Nat) (dep : SemanticDependency) : HState :=
  let st1 := ((st (pyIdx n dep.child_index)).righthand_siblings).foldl
      (fun s crs => copyToChildSiblingStep s i dep crs) st
  ((st1 i).righthand_siblings.filter
      (fun (rs : Nat) => ((rs : Int) != dep.child_index))).foldl
      (fun s rs => copyToSiblingStep conjunctionDeps markUncertain s dep rs) st1

/-- Embedding of `_copy_any_sibling_info` applied at token `i`: the flag loop,
then the loop over a snapshot (`children.copy()`) of the token's current
dependencies. -/
def copyAnySiblingInfo (conjunctionDeps : List String) (markUncertain : Bool)
    (n : Nat) (st : HState) (i : Nat) : HState :=
  let st1 := copyOrConjunctionFlag st i
  ((st1 i).children).foldl
      (fun s dep => processDependency conjunctionDeps markUncertain n s i dep) st1

/-- One full run of the coordination-propagation pass:
`for token in spacy_doc: self._copy_any_sibling_info(token)`. -/
def copyAnySiblingInfoPass (conjunctionDeps : List String) (markUncertain : Bool)
    (n : Nat) (st : HState) : HState :=
  (List.range n).foldl
      (fun s i => copyAnySiblingInfo conjunctionDeps markUncertain n s i) st

/-- The step relation every write of `_copy_any_sibling_info` satisfies: the
dependency lists only grow (no dependency is removed) and the sibling lists
are left untouched. -/
def SiblingStepOK (st st' : HState) : Prop :=
  (∀ j d, d ∈ (st j).children → d ∈ (st' j).children) ∧
  (∀ j, (st' j).righthand_siblings = (st j).righthand_siblings)

theorem siblingStepOK_refl (st : HState) : SiblingStepOK st st :=
  ⟨fun _ _ h => h, fun _ => rfl⟩

theorem siblingStepOK_trans {a b c : HState} (h1 : SiblingStepOK a b)
    (h2 : SiblingStepOK b c) : SiblingStepOK a c :=
  ⟨fun j d hd => h2.1 j d (h1.1 j d hd), fun j => (h2.2 j).trans (h1.2 j)⟩

/-- A reflexive-transitive step relation propagates through a left fold. -/
theorem foldl_rel {σ α : Type} (R : σ → σ → Prop) (hrefl : ∀ s, R s s)
    (htrans : ∀ {a b c}, R a b → R b c → R a c)
    (f : σ → α → σ) (hstep : ∀ s a, R s (f s a)) :
    ∀ (l : List α) (s : σ), R s (l.foldl f s) := by
  intro l
  induction l with
  | nil => intro s; exact hrefl s
  | cons a t ih => intro s; exact htrans (hstep s a) (ih (f s a))

/-- A predicate preserved by every step of a left fold is preserved by the
whole fold. -/
theorem foldl_pred {σ α : Type} (Q : σ → Prop) (f : σ → α → σ)
    (hpres : ∀ s a, Q s → Q (f s a)) :
    ∀ (l : List α) (s : σ), Q s → Q (l.foldl f s) := by
  intro l
  induction l with
  | nil => intro s h; exact h
  | cons a t ih => intro s h; exact ih (f s a) (hpres s a h)

/-- If some element `x` of the fold's list establishes `Q` from the invariant
`I`, and every step preserves both `I` and `Q`, then the fold establishes
`Q`. -/
theorem foldl_establish {σ α : Type} (I Q : σ → Prop) (f : σ → α → σ) (x : α)
    (hI : ∀ s a, I s → I (f s a)) (hQ : ∀ s a, Q s → Q (f s a))
    (hest : ∀ s, I s → Q (f s x)) :
    ∀ (l : List α) (s : σ), x ∈ l → I s → Q (l.foldl f s) := by
  intro l
  induction l with
  | nil => intro s hx; exact absurd hx (List.not_mem_nil x)
  | cons a t ih =>
      intro s hx hIs
      rcases List.mem_cons.mp hx with hxa | hxt
      · subst hxa
        exact foldl_pred Q f hQ t (f s x) (hest s hIs)
      · exact ih (f s a) hxt (hI s a hIs)

theorem updState_apply (st : HState) (i : Nat) (h : HolmesDictionary) (j : Nat) :
    updState st i h j = if j = i then h else st j := rfl

/-- Appending one dependency to one token's `children` is a legal step. -/
theorem updState_append_ok (st : HState) (i : Nat) (e : SemanticDependency) :
    SiblingStepOK st (updState st i { st i with children := (st i).children ++ [e] }) := by
  constructor
  · intro j d hd
    rw [updState_apply]
    by_cases h : j = i
    · subst h; simp only [if_pos rfl]
      exact List.mem_append_left _ hd
    · simpa [h] using hd
  · intro j
    rw [updState_apply]
    by_cases h : j = i
    · subst h; simp
    · simp [h]

theorem orFlagStep_ok (st : HState) (rs : Nat) : SiblingStepOK st (orFlagStep st rs) := by
  constructor
  · intro j d hd
    rw [orFlagStep, updState_apply]
    by_cases h : j = rs
    · subst h; simpa using hd
    · simpa [h] using hd
  · intro j
    rw [orFlagStep, updState_apply]
    by_cases h : j = rs
    · subst h; simp
    · simp [h]

theorem copyOrConjunctionFlag_ok (st : HState) (i : Nat) :
    SiblingStepOK st (copyOrConjunctionFlag st i) := by
  rw [copyOrConjunctionFlag]
  by_cases h : (st i).is_involved_in_or_conjunction
  · simp only [h, if_true]
    exact foldl_rel SiblingStepOK siblingStepOK_refl siblingStepOK_trans
      orFlagStep orFlagStep_ok _ st
  · simp only [h, if_false]
    exact siblingStepOK_refl st

theorem copyToChildSiblingStep_ok (st : HState) (i : Nat) (dep : SemanticDependency)
    (crs : Nat) : SiblingStepOK st (copyToChildSiblingStep st i dep crs) := by
  rw [copyToChildSiblingStep]
  split
  · split
    · exact updState_append_ok st i _
    · exact siblingStepOK_refl st
  · exact siblingStepOK_refl st

theorem copyToSiblingStep_ok (conjunctionDeps : List String) (markUncertain : Bool)
    (st : HState) (dep : SemanticDependency) (rs : Nat) :
    SiblingStepOK st (copyToSiblingStep conjunctionDeps markUncertain st dep rs) := by
  rw [copyToSiblingStep]
  split
  · exact updState_append_ok st rs _
  · exact siblingStepOK_refl st

theorem processDependency_ok (conjunctionDeps : List String) (markUncertain : Bool)
    (n : Nat) (st : HState) (i : Nat) (dep : SemanticDependency) :
    SiblingStepOK st (processDependency conjunctionDeps markUncertain n st i dep) := by
  rw [processDependency]
  exact siblingStepOK_trans
    (foldl_rel SiblingStepOK siblingStepOK_refl siblingStepOK_trans
      (fun s crs => copyToChildSiblingStep s i dep crs)
      (fun s crs => copyToChildSiblingStep_ok s i dep crs) _ st)
    (foldl_rel SiblingStepOK siblingStepOK_refl siblingStepOK_trans
      (fun s rs => copyToSiblingStep conjunctionDeps markUncertain s dep rs)
      (fun s rs => copyToSiblingStep_ok conjunctionDeps markUncertain s dep rs) _ _)

theorem copyAnySiblingInfo_ok (conjunctionDeps : List String) (markUncertain : Bool)
    (n : Nat) (st : HState) (i : Nat) :
    SiblingStepOK st (copyAnySiblingInfo conjunctionDeps markUncertain n st i) := by
  rw [copyAnySiblingInfo]
  refine siblingStepOK_trans (copyOrConjunctionFlag_ok st i) ?_
  exact foldl_rel SiblingStepOK siblingStepOK_refl siblingStepOK_trans
    (fun s dep => processDependency conjunctionDeps markUncertain n s i dep)
    (fun s dep => processDependency_ok conjunctionDeps markUncertain n s i dep) _ _

theorem copyAnySiblingInfoPass_ok (conjunctionDeps : List String) (markUncertain : Bool)
    (n : Nat) (st : HState) :
    SiblingStepOK st (copyAnySiblingInfoPass conjunctionDeps markUncertain n st) := by
  rw [copyAnySiblingInfoPass]
  exact foldl_rel SiblingStepOK siblingStepOK_refl siblingStepOK_trans
    (fun s i => copyAnySiblingInfo conjunctionDeps markUncertain n s i)
    (fun s i => copyAnySiblingInfo_ok conjunctionDeps markUncertain n s i) _ st

end Holmes

namespace Holmes

/-- C1 (amended): after a run of the coordination-propagation pass, for every
token `A` that is a righthand sibling of a token `B` of the document and every
dependency `dep` that `B` carries when the pass starts whose label is not a
conjunction label and whose child is not `A` itself, `A` ends the pass with a
dependency to `dep`'s child or with a dependency carrying `dep`'s label — the
"already had" checks of the code are made against `A`'s dependency list at the
moment the copy is attempted, which may already contain dependencies added
earlier in the same pass, not against `A`'s list at the start of the pass.
Moreover, whenever the sibling-copy step fires, the dependency it appends to
the sibling is exactly `(A, dep.child_index, dep.label)` with uncertainty flag
equal to the language's
`_mark_child_dependencies_copied_to_siblings_as_uncertain` flag. -/
theorem copyAnySiblingInfoPass_copies_to_siblings :
    (∀ (conjunctionDeps : List String) (markUncertain : Bool) (n : Nat) (st : HState)
      (B A : Nat) (dep : SemanticDependency),
      B < n →
      A ∈ (st B).righthand_siblings →
      dep ∈ (st B).children →
      dep.label ∉ conjunctionDeps.map Option.some →
      (A : Int) ≠ dep.child_index →
      ∃ d ∈ ((copyAnySiblingInfoPass conjunctionDeps markUncertain n st) A).children,
        d.child_index = dep.child_index ∨ d.label = dep.label) ∧
    (∀ (conjunctionDeps : List String) (markUncertain : Bool) (st : HState)
      (dep : SemanticDependency) (rs : Nat),
      ((st rs).children.filter (fun d => d.label == dep.label)).length = 0 →
      dep.label ∉ conjunctionDeps.map Option.some →
      ¬ (st rs).has_dependency_with_child_index dep.child_index →
      (rs : Int) ≠ dep.child_index →
      ((copyToSiblingStep conjunctionDeps markUncertain st dep rs) rs).children =
        (st rs).children ++ [⟨(rs : Int), dep.child_index, dep.label, markUncertain⟩]) := by
  constructor
  · intro conj mark n st B A dep hBn hA hdep hlab hAC
    let Q : HState → Prop := fun s =>
      ∃ d ∈ (s A).children, d.child_index = dep.child_index ∨ d.label = dep.label
    let I : HState → Prop := fun s =>
      A ∈ (s B).righthand_siblings ∧ dep ∈ (s B).children
    have hQpres : ∀ (s s' : HState), SiblingStepOK s s' → Q s → Q s' := by
      intro s s' hok hq
      rcases hq with ⟨d, hd, hP⟩
      exact ⟨d, hok.1 A d hd, hP⟩
    have hIpres : ∀ (s s' : HState), SiblingStepOK s s' → I s → I s' := by
      intro s s' hok hi
      refine ⟨?_, hok.1 B dep hi.2⟩
      rw [hok.2 B]
      exact hi.1
    have hestC : ∀ s : HState, Q (copyToSiblingStep conj mark s dep A) := by
      intro s
      by_cases h1 : ((s A).children.filter (fun d => d.label == dep.label)).length = 0
      · by_cases h3 : (s A).has_dependency_with_child_index dep.child_index
        · have hQs : Q s := by
            rcases List.any_eq_true.mp h3 with ⟨d, hd, hdq⟩
            exact ⟨d, hd, Or.inl (by exact_mod_cast beq_iff_eq.mp hdq)⟩
          have hstep : copyToSiblingStep conj mark s dep A = s := by
            rw [copyToSiblingStep, if_neg]
            intro hcond
            exact hcond.2.2.1 h3
          rw [hstep]
          exact hQs
        · have hstep : copyToSiblingStep conj mark s dep A =
              updState s A { s A with children := (s A).children ++
                [⟨(A : Int), dep.child_index, dep.label, mark⟩] } := by
            rw [copyToSiblingStep, if_pos ⟨h1, hlab, h3, hAC⟩]
          rw [hstep]
          refine ⟨⟨(A : Int), dep.child_index, dep.label, mark⟩, ?_, Or.inl rfl⟩
          rw [updState_apply]
          simp
      · have hne : ((s A).children.filter (fun d => d.label == dep.label)) ≠ [] := by
          intro h
          exact h1 (by rw [h]; rfl)
        rcases List.exists_mem_of_ne_nil _ hne with ⟨d, hd⟩
        have hmem := List.mem_filter.mp hd
        have hQs : Q s := ⟨d, hmem.1, Or.inr (beq_iff_eq.mp hmem.2)⟩
        have hstep : copyToSiblingStep conj mark s dep A = s := by
          rw [copyToSiblingStep, if_neg]
          intro hcond
          exact h1 hcond.1
        rw [hstep]
        exact hQs
    have hestDep : ∀ s : HState, A ∈ (s B).righthand_siblings →
        Q (processDependency conj mark n s B dep) := by
      intro s hAs
      rw [processDependency]
      have hok1 : SiblingStepOK s (((s (pyIdx n dep.child_index)).righthand_siblings).foldl
          (fun t crs => copyToChildSiblingStep t B dep crs) s) :=
        foldl_rel SiblingStepOK siblingStepOK_refl siblingStepOK_trans
          (fun t crs => copyToChildSiblingStep t B dep crs)
          (fun t crs => copyToChildSiblingStep_ok t B dep crs) _ s
      have hAfilter : A ∈ ((((s (pyIdx n dep.child_index)).righthand_siblings).foldl
          (fun t crs => copyToChildSiblingStep t B dep crs) s) B).righthand_siblings.filter
          (fun (rs : Nat) => ((rs : Int) != dep.child_index)) := by
        apply List.mem_filter.mpr
        refine ⟨?_, ?_⟩
        · rw [hok1.2 B]
          exact hAs
        · exact bne_iff_ne.mpr hAC
      exact foldl_establish (fun _ => True) Q
        (fun t rs => copyToSiblingStep conj mark t dep rs) A
        (fun _ _ _ => trivial)
        (fun t rs hq => hQpres t _ (copyToSiblingStep_ok conj mark t dep rs) hq)
        (fun t _ => hestC t) _ _ hAfilter trivial
    have hestTok : ∀ s : HState, I s → Q (copyAnySiblingInfo conj mark n s B) := by
      intro s hIs
      rw [copyAnySiblingInfo]
      have hI1 : I (copyOrConjunctionFlag s B) :=
        hIpres s _ (copyOrConjunctionFlag_ok s B) hIs
      exact foldl_establish (fun t => A ∈ (t B).righthand_siblings) Q
        (fun t d => processDependency conj mark n t B d) dep
        (fun t d ht => by
          show A ∈ ((processDependency conj mark n t B d) B).righthand_siblings
          rw [(processDependency_ok conj mark n t B d).2 B]
          exact ht)
        (fun t d hq => hQpres t _ (processDependency_ok conj mark n t B d) hq)
        (fun t ht => hestDep t ht) _ _ hI1.2 hI1.1
    rw [copyAnySiblingInfoPass]
    exact foldl_establish I Q (fun s i => copyAnySiblingInfo conj mark n s i) B
      (fun s i his => hIpres s _ (copyAnySiblingInfo_ok conj mark n s i) his)
      (fun s i hq => hQpres s _ (copyAnySiblingInfo_ok conj mark n s i) hq)
      hestTok (List.range n) st (List.mem_range.mpr hBn) ⟨hA, hdep⟩
  · intro conj mark st dep rs h1 h2 h3 h4
    rw [copyToSiblingStep, if_pos ⟨h1, h2, h3, h4⟩, updState_apply]
    simp

end Holmes

namespace Holmes

/-- The English `_conjunction_deps` table. -/
def englishConjunctionDeps : List String := ["conj", "appos", "cc"]

/-- A five-token document state in which token 2 is recorded as a righthand
sibling of both token 0 and token 1, token 0 has a `dobj` dependency to token
3 and token 1 has a `dobj` dependency to token 4. -/
def c1ExampleState : HState := fun i =>
  match i with
  | 0 => ⟨0, "", [⟨0, 3, some "dobj", false⟩], [2], false, none, none⟩
  | 1 => ⟨1, "", [⟨1, 4, some "dobj", false⟩], [2], false, none, none⟩
  | i => ⟨i, "", [], [], false, none, none⟩

/-- Counterexample to C1 as stated: in `c1ExampleState`, token 2 is a
righthand sibling of token 1, token 1 has the dependency `(1, 4, dobj)` whose
label is not a conjunction label and whose child is not token 2, and before
the pass token 2 has neither a `dobj`-labelled dependency nor a dependency to
token 4 — yet after the coordination-propagation pass token 2 has no
dependency to token 4 (and hence no copied edge at all for this source edge):
while processing token 0 the pass copied `(2, 3, dobj)` onto token 2, so by
the time token 1 was processed the sibling already had a same-labelled
dependency and the copy was skipped. -/
theorem copyAnySiblingInfoPass_copies_to_siblings_counterexample :
    2 ∈ (c1ExampleState 1).righthand_siblings ∧
    (⟨1, 4, some "dobj", false⟩ : SemanticDependency) ∈ (c1ExampleState 1).children ∧
    some "dobj" ∉ englishConjunctionDeps.map Option.some ∧
    ((2 : Nat) : Int) ≠ (4 : Int) ∧
    (¬ ∃ d ∈ (c1ExampleState 2).children, d.label = some "dobj") ∧
    (¬ ∃ d ∈ (c1ExampleState 2).children, d.child_index = 4) ∧
    ¬ ∃ d ∈ ((copyAnySiblingInfoPass englishConjunctionDeps true 5 c1ExampleState) 2).children,
        d.child_index = 4 := by
  decide

/-- Witness for C1 (amended) at a concrete input: applying the theorem to
`c1ExampleState` with `B = 0`, `A = 2` and the dependency `(0, 3, dobj)`, and
applying the sibling-copy equation to the same state. -/
theorem copyAnySiblingInfoPass_copies_to_siblings_witness :
    (∃ d ∈ ((copyAnySiblingInfoPass englishConjunctionDeps true 5 c1ExampleState) 2).children,
        d.child_index = (3 : Int) ∨ d.label = some "dobj") ∧
    ((copyToSiblingStep englishConjunctionDeps true c1ExampleState
        ⟨0, 3, some "dobj", false⟩ 2) 2).children =
      (c1ExampleState 2).children ++ [⟨2, 3, some "dobj", true⟩] :=
  ⟨copyAnySiblingInfoPass_copies_to_siblings.1 englishConjunctionDeps true 5 c1ExampleState
      0 2 ⟨0, 3, some "dobj", false⟩ (by decide) (by decide) (by decide) (by decide) (by decide),
   copyAnySiblingInfoPass_copies_to_siblings.2 englishConjunctionDeps true c1ExampleState
      ⟨0, 3, some "dobj", false⟩ 2 (by decide) (by decide) (by decide) (by decide)⟩

end Holmes

namespace Holmes

/-- The syntactic side of a parsed document as the negation pass reads it:
for each token its syntactic children, its syntactic head, its dependency
label and its Holmes lemma (already computed by `_holmes_lemma`). -/
structure NegDoc where
  n : Nat
  head : Nat → Nat
  dep : Nat → String
  lemmaOf : Nat → String
  childrenOf : Nat → List Nat

/-- The English negation trigger of `EnglishSemanticAnalyzer._set_negation`:
some syntactic child has a negation lemma or the `neg` dependency, or a
`more`/`longer` child itself has a child with lemma `no`. -/
def hasNegationChildEn (d : NegDoc) (t : Nat) : Bool :=
  (d.childrenOf t).any (fun c =>
    (d.lemmaOf c ∈ ["nobody", "nothing", "nowhere", "noone", "neither", "nor", "no"] ||
      d.dep c == "neg") ||
    (d.lemmaOf c ∈ ["more", "longer"] &&
      (d.childrenOf c).any (fun g => d.lemmaOf g == "no")))

/-- The German negation trigger of `GermanSemanticAnalyzer._set_negation`. -/
def hasNegationChildDe (d : NegDoc) (t : Nat) : Bool :=
  (d.childrenOf t).any (fun c =>
    d.lemmaOf c ∈ ["nicht", "kein", "keine", "nie"] ||
    (d.lemmaOf c).startsWith "nirgend")

/-- Embedding of `_set_negation` (same recursion structure for English and
German, parametrised by the trigger): already-resolved tokens are left alone,
a negation trigger resolves to `true`, the root resolves to `false`, and
otherwise the head is resolved recursively and its value copied.  The Python
function recurses without any cycle guard, so the embedded function carries
explicit `fuel` standing for the call stack: `none` means the recursion
exceeded the stack bound. -/
def setNegation (trigger : NegDoc → Nat → Bool) (d : NegDoc) :
    Nat → Nat → (Nat → Option Bool) → Option (Nat → Option Bool)
  | 0, _, _ => none
  | fuel + 1, t, st =>
    if (st t).isSome then some st
    else if trigger d t then some (fun j => if j = t then some true else st j)
    else if d.dep t = "ROOT" then some (fun j => if j = t then some false else st j)
    else
      match setNegation trigger d fuel (d.head t) st with
      | none => none
      | some s' => some (fun j => if j = t then s' (d.head t) else s' j)

/-- The negation pass `for token in spacy_doc: self._set_negation(token)`,
starting from the all-unset state `is_negated = None` that
`HolmesDictionary.__init__` sets up. -/
def negationPass (trigger : NegDoc → Nat → Bool) (d : NegDoc) (fuel : Nat) :
    Option (Nat → Option Bool) :=
  (List.range d.n).foldl
    (fun acc t => match acc with
      | none => none
      | some st => setNegation trigger d fuel t st)
    (some (fun _ => none))

/-- `k`-fold iteration of the syntactic head function. -/
def iterHead (d : NegDoc) : Nat → Nat → Nat
  | 0, t => t
  | k + 1, t => iterHead d k (d.head t)

/-- A single-token document whose token is its own head but is not labelled
`ROOT` and has no negation trigger: a malformed (cyclic) parse. -/
def cyclicNegDoc : NegDoc :=
  ⟨1, fun _ => 0, fun _ => "dep", fun _ => "go", fun _ => []⟩

theorem setNegation_cyclic_none :
    ∀ fuel (st : Nat → Option Bool), st 0 = none →
      setNegation hasNegationChildEn cyclicNegDoc fuel 0 st = none := by
  intro fuel
  induction fuel with
  | zero => intro st _; rfl
  | succ f ih =>
      intro st hst
      rw [setNegation]
      rw [hst]
      simp only [Option.isSome_none, Bool.false_eq_true, if_false]
      have htrig : hasNegationChildEn cyclicNegDoc 0 = false := by decide
      have hdep : cyclicNegDoc.dep 0 = "dep" := rfl
      rw [htrig, hdep]
      simp only [Bool.false_eq_true, if_false, if_neg (by decide : ¬("dep" = "ROOT"))]
      have : cyclicNegDoc.head 0 = 0 := rfl
      rw [this, ih st hst]

end Holmes

namespace Holmes

theorem setNegation_succeeds (trigger : NegDoc → Nat → Bool) (d : NegDoc) :
    ∀ (fuel t : Nat) (st : Nat → Option Bool) (k : Nat),
      k < fuel →
      (trigger d (iterHead d k t) = true ∨ d.dep (iterHead d k t) = "ROOT") →
      ∃ st', setNegation trigger d fuel t st = some st' ∧
        (st' t).isSome ∧ (∀ j, (st j).isSome → st' j = st j) := by
  intro fuel
  induction fuel with
  | zero =>
      intro t st k hk _
      exact absurd hk (Nat.not_lt_zero k)
  | succ f ih =>
      intro t st k hk hstop
      by_cases hs : (st t).isSome
      · exact ⟨st, by rw [setNegation, if_pos hs], hs, fun j _ => rfl⟩
      · by_cases htr : trigger d t = true
        · refine ⟨fun j => if j = t then some true else st j, ?_, by simp, ?_⟩
          · rw [setNegation, if_neg hs, if_pos htr]
          · intro j hj
            have hjt : j ≠ t := by
              intro h
              rw [h] at hj
              exact hs hj
            simp [hjt]
        · by_cases hroot : d.dep t = "ROOT"
          · refine ⟨fun j => if j = t then some false else st j, ?_, by simp, ?_⟩
            · rw [setNegation, if_neg hs, if_neg htr, if_pos hroot]
            · intro j hj
              have hjt : j ≠ t := by
                intro h
                rw [h] at hj
                exact hs hj
              simp [hjt]
          · obtain ⟨k', rfl⟩ : ∃ k', k = k' + 1 := by
              cases k with
              | zero =>
                  exfalso
                  rw [iterHead] at hstop
                  rcases hstop with h | h
                  · exact htr h
                  · exact hroot h
              | succ k' => exact ⟨k', rfl⟩
            have hstop' : trigger d (iterHead d k' (d.head t)) = true ∨
                d.dep (iterHead d k' (d.head t)) = "ROOT" := hstop
            obtain ⟨s', hs', hsome', hpres'⟩ :=
              ih (d.head t) st k' (Nat.lt_of_succ_lt_succ hk) hstop'
            refine ⟨fun j => if j = t then s' (d.head t) else s' j, ?_, by simpa using hsome', ?_⟩
            · rw [setNegation, if_neg hs, if_neg htr, if_neg hroot, hs']
            · intro j hj
              have hjt : j ≠ t := by
                intro h
                rw [h] at hj
                exact hs hj
              simp only [if_neg hjt]
              exact hpres' j hj

/-- C4 (amended): the negation pass, embedded with explicit call-stack fuel,
terminates and resolves `is_negated` for every token whenever every token's
syntactic head chain reaches, within `n` steps, a token carrying a negation
trigger or the `ROOT` dependency label — the shape every well-formed spaCy
parse has.  (The unguarded recursion of `_set_negation` does not terminate on
malformed cyclic head chains; see the counterexample.) -/
theorem negationPass_terminates_and_resolves (trigger : NegDoc → Nat → Bool) (d : NegDoc)
    (H : ∀ t, t < d.n → ∃ k, k ≤ d.n ∧
      (trigger d (iterHead d k t) = true ∨ d.dep (iterHead d k t) = "ROOT")) :
    ∃ st', negationPass trigger d (d.n + 1) = some st' ∧
      ∀ t, t < d.n → (st' t).isSome := by
  have main : ∀ (l : List Nat) (st : Nat → Option Bool),
      (∀ t ∈ l, ∃ k, k ≤ d.n ∧
        (trigger d (iterHead d k t) = true ∨ d.dep (iterHead d k t) = "ROOT")) →
      ∃ st', l.foldl
          (fun acc t => match acc with
            | none => none
            | some st => setNegation trigger d (d.n + 1) t st) (some st) = some st' ∧
        (∀ j, (st j).isSome → st' j = st j) ∧ (∀ t ∈ l, (st' t).isSome) := by
    intro l
    induction l with
    | nil =>
        intro st _
        exact ⟨st, rfl, fun j _ => rfl, by simp⟩
    | cons t ts ihl =>
        intro st hl
        obtain ⟨k, hk, hstop⟩ := hl t (List.mem_cons_self t ts)
        obtain ⟨st1, hst1, hsome1, hpres1⟩ :=
          setNegation_succeeds trigger d (d.n + 1) t st k (Nat.lt_succ_of_le hk) hstop
        obtain ⟨st', hst', hpres2, hall⟩ :=
          ihl st1 (fun u hu => hl u (List.mem_cons_of_mem t hu))
        refine ⟨st', ?_, ?_, ?_⟩
        · rw [List.foldl_cons]
          show ts.foldl _ (match some st with
            | none => none
            | some st => setNegation trigger d (d.n + 1) t st) = some st'
          rw [show (match some st with
            | none => none
            | some st => setNegation trigger d (d.n + 1) t st) =
              setNegation trigger d (d.n + 1) t st from rfl, hst1]
          exact hst'
        · intro j hj
          rw [hpres2 j (by rw [hpres1 j hj]; exact hj), hpres1 j hj]
        · intro u hu
          rcases List.mem_cons.mp hu with h | h
          · subst h
            rw [hpres2 u hsome1]
            exact hsome1
          · exact hall u h
  obtain ⟨st', hst', _, hall⟩ := main (List.range d.n) (fun _ => none)
    (fun t ht => H t (List.mem_range.mp ht))
  exact ⟨st', hst', fun t ht => hall t (List.mem_range.mpr ht)⟩

/-- Counterexample to C4 as stated: on the malformed single-token document
whose token is its own syntactic head without being labelled `ROOT`, the
negation pass fails for every stack bound — the unguarded upward recursion of
`_set_negation` never terminates on a cyclic head chain, and no token's
`is_negated` is ever resolved. -/
theorem negationPass_cyclic_counterexample :
    ¬ ∃ fuel, (negationPass hasNegationChildEn cyclicNegDoc fuel).isSome := by
  rintro ⟨fuel, hf⟩
  have h0 : negationPass hasNegationChildEn cyclicNegDoc fuel = none := by
    show (List.range 1).foldl _ _ = none
    have hr : List.range 1 = [0] := rfl
    rw [hr, List.foldl_cons, List.foldl_nil]
    show setNegation hasNegationChildEn cyclicNegDoc fuel 0 (fun _ => none) = none
    exact setNegation_cyclic_none fuel (fun _ => none) rfl
  rw [h0] at hf
  simp at hf

/-- A well-formed two-token document ("He did not go" reduced to its head
chain): token 0 is the root with the negation child 1, token 1 hangs off it. -/
def exNegDoc : NegDoc :=
  ⟨2, fun _ => 0, fun t => if t = 0 then "ROOT" else "neg",
    fun t => if t = 0 then "go" else "not", fun t => if t = 0 then [1] else []⟩

/-- Witness for C4 (amended): on the well-formed two-token document the pass
succeeds and resolves both tokens. -/
theorem negationPass_terminates_and_resolves_witness :
    ∃ st', negationPass hasNegationChildEn exNegDoc (exNegDoc.n + 1) = some st' ∧
      ∀ t, t < exNegDoc.n → (st' t).isSome :=
  negationPass_terminates_and_resolves hasNegationChildEn exNegDoc (by
    intro t ht
    match t, ht with
    | 0, _ => exact ⟨0, by decide, Or.inr (by decide)⟩
    | 1, _ => exact ⟨1, by decide, Or.inr (by decide)⟩
    | t + 2, h => exact absurd h (by show ¬ (t + 2 < 2); omega))

end Holmes

namespace Holmes

/-- The token-level read-only inputs (from the external parser) that the
predicative-adjective and preposition-phrase passes consult: document size,
part-of-speech per token, sentence membership and the coreference oracle
`is_involved_in_coreference`. -/
structure TokenDoc where
  n : Nat
  pos : Nat → String
  sentId : Nat → Nat
  coref : Nat → Bool

/-- The per-language tag/label constants consumed by
`_normalize_predicative_adjectives`. -/
structure PredicativeCfg where
  adjectival_predicate_head_pos : String
  adjectival_predicate_subject_pos : List String
  adjectival_predicate_subject_dep : String
  adjectival_predicate_predicate_dep : String
  modifier_dep : String

/-- The English constants for `_normalize_predicative_adjectives`. -/
def englishPredicativeCfg : PredicativeCfg :=
  ⟨"VERB", ["NOUN", "PROPN"], "nsubj", "acomp", "amod"⟩

/-- The German constants for `_normalize_predicative_adjectives`. -/
def germanPredicativeCfg : PredicativeCfg :=
  ⟨"AUX", ["NOUN", "PROPN", "PRON"], "sb", "pd", "nk"⟩

/-- Embedding of `_normalize_predicative_adjectives` applied at token `i`.
The two Python generator expressions both range over `token._.holmes.children`;
they are embedded as eager filters of the children list at entry, which agrees
with the lazy Python generators because the loop body only ever appends
`modifier_dep`-labelled dependencies, which neither generator's filter
accepts (`modifier_dep` differs from both the subject and the predicate
dependency labels in both language tables), and rewrites `i`'s own children
only after both loops are finished.  The Python locals `altered` and the
leaked loop variable `subject_index` are threaded through the fold as the
second and third accumulator components; `token.doc[...]` lookups use Python
indexing semantics via `pyIdx`. -/
def normalizePredicativeAdjectives (cfg : PredicativeCfg) (doc : TokenDoc)
    (st : HState) (i : Nat) : HState :=
  if doc.pos i = cfg.adjectival_predicate_head_pos then
    let adjIndexes := ((st i).children.filter (fun dep =>
        dep.label == some cfg.adjectival_predicate_predicate_dep &&
        doc.pos (pyIdx doc.n dep.child_index) == "ADJ" &&
        decide (0 ≤ dep.child_index))).map (fun d => d.child_index)
    let result := adjIndexes.foldl (fun (acc : HState × Bool × Int) adjI =>
      let subjIndexes := ((st i).children.filter (fun dep =>
          dep.label == some cfg.adjectival_predicate_subject_dep &&
          (cfg.adjectival_predicate_subject_pos.contains
              (doc.pos (pyIdx doc.n dep.child_index)) ||
            doc.coref (pyIdx doc.n dep.child_index)) &&
          decide (0 ≤ dep.child_index) && dep.child_index != adjI)).map
          (fun d => d.child_index)
      subjIndexes.foldl (fun (acc2 : HState × Bool × Int) subjI =>
        (updState acc2.1 (pyIdx doc.n subjI) { acc2.1 (pyIdx doc.n subjI) with
            children := (acc2.1 (pyIdx doc.n subjI)).children ++
              [⟨subjI, adjI, some cfg.modifier_dep, false⟩] },
          true, subjI)) acc) (st, false, 0)
    if result.2.1 then
      updState result.1 i { result.1 i with
        children := [⟨(i : Int), 0 - (result.2.2 + 1), none, false⟩] }
    else result.1
  else st

/-- C5: for a copular construction (token `i` has the adjectival-predicate
head part of speech, exactly one predicate dependency to an adjective token
`aN` and exactly one subject dependency to a subject token `sN ≠ i`), after
`_normalize_predicative_adjectives` the subject carries a new
modifier-labelled dependency to the adjective and the copula's children list
is exactly the single label-less grammatical redirect with child index
`-(sN + 1)`. -/
theorem normalizePredicativeAdjectives_copular (cfg : PredicativeCfg) (doc : TokenDoc)
    (st : HState) (i aN sN : Nat)
    (hpos : doc.pos i = cfg.adjectival_predicate_head_pos)
    (hadj : ((st i).children.filter (fun dep =>
        dep.label == some cfg.adjectival_predicate_predicate_dep &&
        doc.pos (pyIdx doc.n dep.child_index) == "ADJ" &&
        decide (0 ≤ dep.child_index))).map (fun d => d.child_index) = [(aN : Int)])
    (hsubj : ((st i).children.filter (fun dep =>
        dep.label == some cfg.adjectival_predicate_subject_dep &&
        (cfg.adjectival_predicate_subject_pos.contains
            (doc.pos (pyIdx doc.n dep.child_index)) ||
          doc.coref (pyIdx doc.n dep.child_index)) &&
        decide (0 ≤ dep.child_index) && dep.child_index != (aN : Int))).map
        (fun d => d.child_index) = [(sN : Int)])
    (hsi : sN ≠ i) :
    ((normalizePredicativeAdjectives cfg doc st i) sN).children =
      (st sN).children ++ [⟨(sN : Int), (aN : Int), some cfg.modifier_dep, false⟩] ∧
    ((normalizePredicativeAdjectives cfg doc st i) i).children =
      [⟨(i : Int), 0 - ((sN : Int) + 1), none, false⟩] := by
  have hpy : pyIdx doc.n (sN : Int) = sN := by
    simp [pyIdx]
  have hmain : normalizePredicativeAdjectives cfg doc st i =
      updState (updState st sN { st sN with
          children := (st sN).children ++
            [⟨(sN : Int), (aN : Int), some cfg.modifier_dep, false⟩] }) i
        { (updState st sN { st sN with
            children := (st sN).children ++
              [⟨(sN : Int), (aN : Int), some cfg.modifier_dep, false⟩] }) i with
          children := [⟨(i : Int), 0 - ((sN : Int) + 1), none, false⟩] } := by
    rw [normalizePredicativeAdjectives, if_pos hpos]
    simp only [hadj, hsubj, List.foldl_cons, List.foldl_nil, hpy]
    rw [if_pos trivial]
  constructor
  · rw [hmain, updState_apply, if_neg hsi, updState_apply, if_pos rfl]
  · rw [hmain, updState_apply, if_pos rfl]

/-- The document "The town is old ." as the pass sees it. -/
def c5Doc : TokenDoc :=
  ⟨5, fun t =>
      if t = 0 then "DET" else if t = 1 then "NOUN" else
      if t = 2 then "VERB" else if t = 3 then "ADJ" else "PUNCT",
    fun _ => 0, fun _ => false⟩

/-- The Holmes state of "The town is old ." before the predicative-adjective
pass: the copula token 2 carries an `nsubj` dependency to "town" and an
`acomp` dependency to "old". -/
def c5State : HState := fun i =>
  if i = 2 then
    ⟨2, "be", [⟨2, 1, some "nsubj", false⟩, ⟨2, 3, some "acomp", false⟩], [], false, none, none⟩
  else ⟨i, "", [], [], false, none, none⟩

/-- Witness for C5 at the concrete document "The town is old .": applying the
theorem at the copula token 2 with adjective 3 and subject 1. -/
theorem normalizePredicativeAdjectives_copular_witness :
    ((normalizePredicativeAdjectives englishPredicativeCfg c5Doc c5State 2) 1).children =
      (c5State 1).children ++ [⟨1, 3, some "amod", false⟩] ∧
    ((normalizePredicativeAdjectives englishPredicativeCfg c5Doc c5State 2) 2).children =
      [⟨2, -2, none, false⟩] :=
  normalizePredicativeAdjectives_copular englishPredicativeCfg c5Doc c5State 2 3 1
    (by decide) (by decide) (by decide) (by decide)

end Holmes

namespace Holmes

/-- Embedding of `SerializedHolmesDocument`: the spaCy byte payload (external,
kept abstract as `β`), the per-token Holmes dictionaries and the model name.
The jsonpickle encoding of this object is modelled from the spec: serialization
to/from a byte stream is a thin, non-semantic external adapter, so the
"serialized string" is represented by this value itself. -/
structure SerializedHolmesDocument (β : Type) where
  serialized_spacy_document : β
  dictionaries : List (Option HolmesDictionary)
  model : String

/-- Embedding of `SerializedHolmesDocument.holmes_document`: the spaCy
document is rebuilt from the byte payload by the external library and then
`token._.holmes = self._dictionaries[token.i]` attaches dictionary `i` to
token `i`, so the Holmes records of the returned document are exactly the
stored dictionaries in order. -/
def SerializedHolmesDocument.holmesDocumentRecords {β : Type}
    (s : SerializedHolmesDocument β) : List (Option HolmesDictionary) :=
  s.dictionaries

/-- Embedding of `SemanticAnalyzer.to_serialized_string` acting on the
per-token `token._.holmes` slots (a slot is `none` when Python `None` is
assigned).  First loop: collect each token's dictionary and set its slot to
`None`; then the `SerializedHolmesDocument` is built from `spacy_doc.to_bytes()`
(external, passed as `bytes`), the collected dictionaries and the analyzer's
model; second loop: re-attach `dictionaries[token.i]` to each token.  The
returned pair is (final slot state, serialized document). -/
def toSerializedString {β : Type} (bytes : β) (model : String) (n : Nat)
    (st : Nat → Option HolmesDictionary) :
    (Nat → Option HolmesDictionary) × SerializedHolmesDocument β :=
  let phase1 := (List.range n).foldl
      (fun (acc : List (Option HolmesDictionary) × (Nat → Option HolmesDictionary)) t =>
        (acc.1 ++ [acc.2 t], fun j => if j = t then none else acc.2 j)) ([], st)
  let ser : SerializedHolmesDocument β := ⟨bytes, phase1.1, model⟩
  let final := (List.range n).foldl
      (fun (s : Nat → Option HolmesDictionary) t =>
        fun j => if j = t then phase1.1.getD t none else s j) phase1.2
  (final, ser)

/-- Embedding of `SemanticAnalyzer.from_serialized_string`: decode (the
identity on the modelled serialized value), compare the recorded model with
the analyzer's model, raise `WrongModelDeserializationError` on mismatch and
otherwise return the reconstructed document, whose Holmes records are the
stored dictionaries. -/
def fromSerializedString {β : Type} (analyzerModel : String)
    (s : SerializedHolmesDocument β) : Except HolmesError (List (Option HolmesDictionary)) :=
  if s.model ≠ analyzerModel then .error (.wrongModelDeserialization s.model)
  else .ok s.holmesDocumentRecords

theorem toSerializedString_phase1 :
    ∀ (l : List Nat) (acc : List (Option HolmesDictionary))
      (s : Nat → Option HolmesDictionary), l.Nodup →
      (l.foldl (fun (acc : List (Option HolmesDictionary) × (Nat → Option HolmesDictionary)) t =>
          (acc.1 ++ [acc.2 t], fun j => if j = t then none else acc.2 j)) (acc, s)).1 =
        acc ++ l.map s ∧
      ∀ j, j ∉ l →
        (l.foldl (fun (acc : List (Option HolmesDictionary) × (Nat → Option HolmesDictionary)) t =>
            (acc.1 ++ [acc.2 t], fun j => if j = t then none else acc.2 j)) (acc, s)).2 j = s j := by
  intro l
  induction l with
  | nil =>
      intro acc s _
      exact ⟨by simp, fun j _ => rfl⟩
  | cons t ts ih =>
      intro acc s hnd
      obtain ⟨hts, hnd'⟩ := List.nodup_cons.mp hnd
      obtain ⟨h1, h2⟩ := ih (acc ++ [s t]) (fun j => if j = t then none else s j) hnd'
      constructor
      · rw [List.foldl_cons, h1]
        have hmap : ts.map (fun j => if j = t then none else s j) = ts.map s := by
          apply List.map_congr_left
          intro u hu
          have : u ≠ t := fun h => hts (h ▸ hu)
          simp [this]
        rw [hmap, List.map_cons, List.append_assoc]
        rfl
      · intro j hj
        rw [List.foldl_cons]
        have hjts : j ∉ ts := fun h => hj (List.mem_cons_of_mem t h)
        have hjt : j ≠ t := fun h => hj (h ▸ List.mem_cons_self t ts)
        rw [h2 j hjts]
        simp [hjt]

theorem toSerializedString_phase2 (dicts : List (Option HolmesDictionary)) :
    ∀ (l : List Nat) (s : Nat → Option HolmesDictionary),
      (∀ j, j ∈ l →
        (l.foldl (fun (s : Nat → Option HolmesDictionary) t =>
          fun j => if j = t then dicts.getD t none else s j) s) j = dicts.getD j none) ∧
      (∀ j, j ∉ l →
        (l.foldl (fun (s : Nat → Option HolmesDictionary) t =>
          fun j => if j = t then dicts.getD t none else s j) s) j = s j) := by
  intro l
  induction l with
  | nil =>
      intro s
      exact ⟨fun j hj => absurd hj (List.not_mem_nil j), fun j _ => rfl⟩
  | cons t ts ih =>
      intro s
      obtain ⟨h1, h2⟩ := ih (fun j => if j = t then dicts.getD t none else s j)
      constructor
      · intro j hj
        rw [List.foldl_cons]
        by_cases hmem : j ∈ ts
        · exact h1 j hmem
        · have hjt : j = t := by
            rcases List.mem_cons.mp hj with h | h
            · exact h
            · exact absurd h hmem
          subst hjt
          rw [h2 j hmem]
          simp
      · intro j hj
        rw [List.foldl_cons]
        have hjts : j ∉ ts := fun h => hj (List.mem_cons_of_mem t h)
        have hjt : j ≠ t := fun h => hj (h ▸ List.mem_cons_self t ts)
        rw [h2 j hjts]
        simp [hjt]

/-- C10: `to_serialized_string` has no net effect on its input document: the
temporary detachment of every token's Holmes dictionary is fully undone by
the restoring loop, so after the call every token's `_.holmes` slot holds
exactly what it held before. -/
theorem toSerializedString_restores_document {β : Type} (bytes : β) (model : String)
    (n : Nat) (st : Nat → Option HolmesDictionary) (j : Nat) :
    (toSerializedString bytes model n st).1 j = st j := by
  have hphase1 := toSerializedString_phase1 (List.range n) [] st (List.nodup_range n)
  by_cases hj : j < n
  · have hmem : j ∈ List.range n := List.mem_range.mpr hj
    rw [toSerializedString]
    have h2 := (toSerializedString_phase2
        ((List.range n).foldl (fun (acc : List (Option HolmesDictionary) ×
            (Nat → Option HolmesDictionary)) t =>
          (acc.1 ++ [acc.2 t], fun j => if j = t then none else acc.2 j)) ([], st)).1
        (List.range n)
        ((List.range n).foldl (fun (acc : List (Option HolmesDictionary) ×
            (Nat → Option HolmesDictionary)) t =>
          (acc.1 ++ [acc.2 t], fun j => if j = t then none else acc.2 j)) ([], st)).2).1 j hmem
    dsimp only
    rw [h2, hphase1.1]
    simp only [List.nil_append]
    rw [List.getD_eq_getElem?_getD, List.getElem?_map, List.getElem?_range hj]
    rfl
  · have hmem : j ∉ List.range n := fun h => hj (List.mem_range.mp h)
    rw [toSerializedString]
    have h2 := (toSerializedString_phase2
        ((List.range n).foldl (fun (acc : List (Option HolmesDictionary) ×
            (Nat → Option HolmesDictionary)) t =>
          (acc.1 ++ [acc.2 t], fun j => if j = t then none else acc.2 j)) ([], st)).1
        (List.range n)
        ((List.range n).foldl (fun (acc : List (Option HolmesDictionary) ×
            (Nat → Option HolmesDictionary)) t =>
          (acc.1 ++ [acc.2 t], fun j => if j = t then none else acc.2 j)) ([], st)).2).2 j hmem
    dsimp only
    rw [h2, hphase1.2 j hmem]

/-- C7: serializing an enriched document and reconstructing it on an analyzer
with the same model yields exactly the original per-token Holmes records (in
token order); reconstructing on an analyzer whose model differs from the one
recorded in the serialized form raises `WrongModelDeserializationError` and
returns no document. -/
theorem serialization_round_trip {β : Type} (bytes : β) (model otherModel : String)
    (n : Nat) (st : Nat → Option HolmesDictionary) :
    (fromSerializedString model (toSerializedString bytes model n st).2 =
      .ok ((List.range n).map st)) ∧
    (otherModel ≠ model →
      fromSerializedString otherModel (toSerializedString bytes model n st).2 =
        .error (.wrongModelDeserialization model)) := by
  have hphase1 := toSerializedString_phase1 (List.range n) [] st (List.nodup_range n)
  have hdicts : (toSerializedString bytes model n st).2.dictionaries =
      (List.range n).map st := by
    rw [toSerializedString]
    rw [hphase1.1]
    simp
  have hmodel : (toSerializedString bytes model n st).2.model = model := rfl
  constructor
  · rw [fromSerializedString, if_neg (by rw [hmodel]; simp)]
    rw [SerializedHolmesDocument.holmesDocumentRecords, hdicts]
  · intro hne
    rw [fromSerializedString, if_pos (by rw [hmodel]; exact hne.symm), hmodel]

/-- Witness for C7 at a concrete input: a one-token document serialized under
`en_core_web_lg` round-trips to its original record and is rejected with
`WrongModelDeserializationError` under `de_core_news_md`. -/
theorem serialization_round_trip_witness :
    (fromSerializedString "en_core_web_lg"
        (toSerializedString () "en_core_web_lg" 1
          (fun _ => some ⟨0, "dog", [], [], false, some false, some true⟩)).2 =
      .ok ((List.range 1).map
        (fun _ => some ⟨0, "dog", [], [], false, some false, some true⟩))) ∧
    (fromSerializedString "de_core_news_md"
        (toSerializedString () "en_core_web_lg" 1
          (fun _ => some ⟨0, "dog", [], [], false, some false, some true⟩)).2 =
      .error (.wrongModelDeserialization "en_core_web_lg")) :=
  ⟨(serialization_round_trip () "en_core_web_lg" "de_core_news_md" 1
      (fun _ => some ⟨0, "dog", [], [], false, some false, some true⟩)).1,
   (serialization_round_trip () "en_core_web_lg" "de_core_news_md" 1
      (fun _ => some ⟨0, "dog", [], [], false, some false, some true⟩)).2 (by decide)⟩

end Holmes

namespace Holmes

/-- The per-language preposition dependency labels consumed by
`_create_additional_preposition_phrase_semantic_dependencies`. -/
structure PrepositionCfg where
  spacy_noun_to_preposition_dep : String
  spacy_verb_to_preposition_dep : String
  holmes_noun_to_preposition_dep : String
  holmes_verb_to_preposition_dep : String

/-- The English preposition labels. -/
def englishPrepositionCfg : PrepositionCfg := ⟨"prep", "prep", "prepposs", "prepposs"⟩

/-- The German preposition labels. -/
def germanPrepositionCfg : PrepositionCfg := ⟨"mnr", "mo", "mnrposs", "moposs"⟩

/-- Embedding of the local helper
`add_dependencies_pointing_to_preposition_and_siblings(parent, label)`: for
the preposition token `tokI` and each of its righthand siblings, append to
`parent` a new dependency to that token with the given label, marked
uncertain, skipping a self-referring append. -/
def addDependenciesPointingToPrepositionAndSiblings (st : HState) (tokI parent : Nat)
    (label : String) : HState :=
  (tokI :: (st tokI).righthand_siblings).foldl
    (fun s wp =>
      if parent ≠ wp then
        updState s parent { s parent with children := (s parent).children ++
          [⟨(parent : Int), (wp : Int), some label, true⟩] }
      else s) st

/-- The first mutation loop of
`_create_additional_preposition_phrase_semantic_dependencies`: for each
governing verb, if the preceding noun governs the preposition and the verb
does not yet, add "possible" verb-to-preposition dependencies. -/
def prepNounToVerbPhase (cfg : PrepositionCfg) (st : HState) (i : Nat)
    (governingVerbs : List Nat) : HState :=
  governingVerbs.foldl (fun s gv =>
    if (s (i - 1)).has_dependency_with_child_index_and_label (i : Int)
        (some cfg.spacy_noun_to_preposition_dep) &&
       !((s gv).has_dependency_with_child_index_and_label (i : Int)
        (some cfg.spacy_verb_to_preposition_dep)) then
      addDependenciesPointingToPrepositionAndSiblings s i gv
        cfg.holmes_verb_to_preposition_dep
    else s) st

/-- The second mutation step of
`_create_additional_preposition_phrase_semantic_dependencies`: if the first
governing verb governs the preposition and the preceding noun does not yet,
and the preposition does not point back into a relative clause, add "possible"
noun-to-preposition dependencies. -/
def prepVerbToNounPhase (cfg : PrepositionCfg) (doc : TokenDoc) (st : HState)
    (i gv0 : Nat) : HState :=
  if (st gv0).has_dependency_with_child_index_and_label (i : Int)
      (some cfg.spacy_verb_to_preposition_dep) &&
     !((st (i - 1)).has_dependency_with_child_index_and_label (i : Int)
      (some cfg.spacy_noun_to_preposition_dep)) then
    if ((st i).children).any (fun dep =>
        (st (pyIdx doc.n dep.child_index)).has_dependency_with_label (some "relcl")) then
      st
    else
      addDependenciesPointingToPrepositionAndSiblings st i (i - 1)
        cfg.holmes_noun_to_preposition_dep
  else st

/-- Embedding of
`_create_additional_preposition_phrase_semantic_dependencies` applied at
token `i`: the token must be a preposition directly preceded (within the same
sentence) by a noun or a coreferring token; the governing verbs are the verbs
of the sentence to the left of the preposition that have a dependency to the
preceding noun; without one the function returns unchanged, otherwise the two
mutation phases run in order. -/
def createAdditionalPrepositionPhraseSemanticDependencies (cfg : PrepositionCfg)
    (doc : TokenDoc) (st : HState) (i : Nat) : HState :=
  if doc.pos i = "ADP" then
    if 0 < i ∧ doc.sentId (i - 1) = doc.sentId i ∧
        (doc.pos (i - 1) ∈ ["NOUN", "PROPN"] ∨ doc.coref (i - 1)) then
      match (List.range doc.n).filter (fun w =>
          doc.sentId w == doc.sentId i && decide (w < i) && doc.pos w == "VERB" &&
          (st w).has_dependency_with_child_index ((i - 1 : Nat) : Int)) with
      | [] => st
      | gv0 :: gvRest =>
          prepVerbToNounPhase cfg doc
            (prepNounToVerbPhase cfg st i (gv0 :: gvRest)) i gv0
    else st
  else st

/-- One run of the preposition-phrase pass over the whole document. -/
def createAdditionalPrepositionPhraseSemanticDependenciesPass (cfg : PrepositionCfg)
    (doc : TokenDoc) (st : HState) : HState :=
  (List.range doc.n).foldl
    (fun s i => createAdditionalPrepositionPhraseSemanticDependencies cfg doc s i) st

/-- The frame property of the preposition-phrase pass: each token's dependency
list is only ever extended — never shortened, never rewritten — and every
appended dependency is uncertain and carries one of the language's two
"possible" preposition labels. -/
def AdditivePossOnly (cfg : PrepositionCfg) (st st' : HState) : Prop :=
  ∀ j, ∃ add, (st' j).children = (st j).children ++ add ∧
    ∀ e ∈ add, e.is_uncertain = true ∧
      (e.label = some cfg.holmes_noun_to_preposition_dep ∨
       e.label = some cfg.holmes_verb_to_preposition_dep)

theorem additivePossOnly_refl (cfg : PrepositionCfg) (st : HState) :
    AdditivePossOnly cfg st st :=
  fun j => ⟨[], by simp, by simp⟩

theorem additivePossOnly_trans {cfg : PrepositionCfg} {a b c : HState}
    (h1 : AdditivePossOnly cfg a b) (h2 : AdditivePossOnly cfg b c) :
    AdditivePossOnly cfg a c := by
  intro j
  obtain ⟨a1, e1, m1⟩ := h1 j
  obtain ⟨a2, e2, m2⟩ := h2 j
  refine ⟨a1 ++ a2, ?_, ?_⟩
  · rw [e2, e1, List.append_assoc]
  · intro e he
    rcases List.mem_append.mp he with h | h
    · exact m1 e h
    · exact m2 e h

theorem addDependencies_additive (cfg : PrepositionCfg) (st : HState)
    (tokI parent : Nat) (label : String)
    (hl : label = cfg.holmes_noun_to_preposition_dep ∨
      label = cfg.holmes_verb_to_preposition_dep) :
    AdditivePossOnly cfg st
      (addDependenciesPointingToPrepositionAndSiblings st tokI parent label) := by
  rw [addDependenciesPointingToPrepositionAndSiblings]
  apply foldl_rel (AdditivePossOnly cfg) (additivePossOnly_refl cfg)
    (fun h1 h2 => additivePossOnly_trans h1 h2)
  intro s wp
  split
  · intro j
    by_cases hj : j = parent
    · subst hj
      refine ⟨[⟨(j : Int), (wp : Int), some label, true⟩], ?_, ?_⟩
      · rw [updState_apply, if_pos rfl]
      · intro e he
        rw [List.mem_singleton.mp he]
        refine ⟨rfl, ?_⟩
        rcases hl with h | h
        · exact Or.inl (by rw [h])
        · exact Or.inr (by rw [h])
    · refine ⟨[], ?_, by simp⟩
      rw [updState_apply, if_neg hj, List.append_nil]
  · exact additivePossOnly_refl cfg s

theorem prepNounToVerbPhase_additive (cfg : PrepositionCfg) (st : HState) (i : Nat)
    (governingVerbs : List Nat) :
    AdditivePossOnly cfg st (prepNounToVerbPhase cfg st i governingVerbs) := by
  rw [prepNounToVerbPhase]
  apply foldl_rel (AdditivePossOnly cfg) (additivePossOnly_refl cfg)
    (fun h1 h2 => additivePossOnly_trans h1 h2)
  intro s gv
  split
  · exact addDependencies_additive cfg s i gv cfg.holmes_verb_to_preposition_dep
      (Or.inr rfl)
  · exact additivePossOnly_refl cfg s

theorem prepVerbToNounPhase_additive (cfg : PrepositionCfg) (doc : TokenDoc)
    (st : HState) (i gv0 : Nat) :
    AdditivePossOnly cfg st (prepVerbToNounPhase cfg doc st i gv0) := by
  rw [prepVerbToNounPhase]
  split
  · split
    · exact additivePossOnly_refl cfg st
    · exact addDependencies_additive cfg st i (i - 1)
        cfg.holmes_noun_to_preposition_dep (Or.inl rfl)
  · exact additivePossOnly_refl cfg st

theorem createAdditionalPrepositions_additive (cfg : PrepositionCfg) (doc : TokenDoc)
    (st : HState) (i : Nat) :
    AdditivePossOnly cfg st
      (createAdditionalPrepositionPhraseSemanticDependencies cfg doc st i) := by
  rw [createAdditionalPrepositionPhraseSemanticDependencies]
  split
  · split
    · split
      · exact additivePossOnly_refl cfg st
      · exact additivePossOnly_trans
          (prepNounToVerbPhase_additive cfg st i _)
          (prepVerbToNounPhase_additive cfg doc _ i _)
    · exact additivePossOnly_refl cfg st
  · exact additivePossOnly_refl cfg st

/-- C8: the preposition-phrase augmentation pass is purely additive: for
every token, it never removes an existing dependency and never changes the
label or uncertainty of an existing dependency (each token's dependency list
after the pass is its old list extended by new entries), and every dependency
it adds is marked uncertain and carries one of the language's "possible"
preposition labels (`prepposs` for English, `mnrposs`/`moposs` for German). -/
theorem createAdditionalPrepositionsPass_additive (cfg : PrepositionCfg)
    (doc : TokenDoc) (st : HState) :
    AdditivePossOnly cfg st
      (createAdditionalPrepositionPhraseSemanticDependenciesPass cfg doc st) := by
  rw [createAdditionalPrepositionPhraseSemanticDependenciesPass]
  apply foldl_rel (AdditivePossOnly cfg) (additivePossOnly_refl cfg)
    (fun h1 h2 => additivePossOnly_trans h1 h2)
  intro s i
  exact createAdditionalPrepositions_additive cfg doc s i

end Holmes
